import Mathlib

/-!
# Verification of `rust-linux-drm` core components

A shallow embedding of the core of the `linux-drm` crate, together with
theorems settling the specification claims about it.

The embedding covers:

* the atomic transaction builder (`src/modeset/atomic.rs`):
  `AtomicRequest`, its `new`/`reset`/`set_property` operations and the
  `for_ioctl_req` serialization into four flat parallel arrays;
* property-type flag decoding (`src/modeset/props.rs`,
  `PropertyType::from_raw_flags`) with the flag constants from
  `src/ioctl.rs`;
* the size-then-content retry loops for variable-length kernel arrays
  (`Card::object_properties`, `Card::each_object_property_meta`,
  `Card::resources`, `ObjectPropMeta::values`/`range`/`enum_members`),
  modelled over an explicit list of outcomes of the underlying
  exchanges;
* the interrupted-retry gateway `drm_ioctl` (`src/lib.rs`);
* the cleanup-guard logic of `Card::create_dumb_buffer` (`src/lib.rs`,
  with `util::Cleanup`);
* the error-code mapping of `src/result.rs`.

Rust machine integers (`u32`, `u64`) are modelled as `Nat`: the embedded
code only ever compares, stores and copies these values, never performs
arithmetic on them, so no overflow behaviour is lost (the one arithmetic
operation, `total_props += 1`, is a saturating safety net documented in
the source as panicking past `u32::MAX`; it only feeds a `Vec`
capacity hint and does not influence any serialized output).
-/

/-! ## Atomic transaction builder (src/modeset/atomic.rs)

`AtomicRequest.objs` is a `BTreeMap<u32, AtomicRequestObj>` in the
source.  We model it as an association list sorted strictly ascending
by key, which is exactly the observable content of a `BTreeMap`
(iteration is in ascending key order).  The `drops` list of deferred
type-erased values does not contribute to serialization and is modelled
only by its length.
-/

/-- One entry of the atomic request table: the two parallel vectors of
property ids and property values for a single object. -/
structure AtomicRequestObj where
  prop_ids : List Nat
  prop_values : List Nat
deriving Repr, DecidableEq

/-- The atomic modesetting request builder.  `objs` models the
`BTreeMap<u32, AtomicRequestObj>` as a key-sorted association list;
`total_props` is the running total property counter; `drops` counts the
deferred-drop entries (their contents never influence serialization). -/
structure AtomicRequest where
  objs : List (Nat × AtomicRequestObj)
  total_props : Nat
  drops : Nat
deriving Repr, DecidableEq

/-- A single `set_property` call: the raw object id (the kind tag is
discarded by `ObjectId::as_raw_type_and_id` before keying the table),
the property id, and the raw `u64` value. -/
structure SetPropertyCall where
  obj : Nat
  prop : Nat
  val : Nat
deriving Repr, DecidableEq

/-- `AtomicRequest::new()`: the empty request. -/
def AtomicRequest.new : AtomicRequest :=
  { objs := [], total_props := 0, drops := 0 }

/-- `AtomicRequest::reset()`: truncate every per-object vector to length
zero (keeping the object table keys), zero the total counter, and drop
the deferred values. -/
def AtomicRequest.reset (req : AtomicRequest) : AtomicRequest :=
  { objs := req.objs.map (fun kv => (kv.1, ⟨[], []⟩))
    total_props := 0
    drops := 0 }

/-- The `BTreeMap::entry(obj_id).or_insert_with(..)` followed by the two
pushes in `set_property`, on the sorted-association-list model: insert a
fresh entry at the sorted position, or append `(p, v)` to the existing
entry's parallel vectors. -/
def setInObjs (L : List (Nat × AtomicRequestObj)) (k p v : Nat) :
    List (Nat × AtomicRequestObj) :=
  match L with
  | [] => [(k, ⟨[p], [v]⟩)]
  | (k', o) :: rest =>
    if k < k' then (k, ⟨[p], [v]⟩) :: (k', o) :: rest
    else if k = k' then
      (k', ⟨o.prop_ids ++ [p], o.prop_values ++ [v]⟩) :: rest
    else (k', o) :: setInObjs rest k p v

/-- `AtomicRequest::set_property`: route the `(prop_id, value)` pair into
the per-object entry keyed by the raw object id and bump the total
counter.  (The source also pushes an optional deferred-drop box, counted
by `drops`, and panics past `u32::MAX` total properties — a safety net
that does not affect the serialized arrays.) -/
def AtomicRequest.set_property (req : AtomicRequest) (c : SetPropertyCall) :
    AtomicRequest :=
  { objs := setInObjs req.objs c.obj c.prop c.val
    total_props := req.total_props + 1
    drops := req.drops }

/-- Apply a sequence of `set_property` calls in order. -/
def AtomicRequest.applyCalls (req : AtomicRequest) (calls : List SetPropertyCall) :
    AtomicRequest :=
  calls.foldl AtomicRequest.set_property req

/-- The four flat parallel arrays produced by
`AtomicRequest::for_ioctl_req`. -/
structure AtomicRequestRawParts where
  obj_ids : List Nat
  obj_prop_counts : List Nat
  prop_ids : List Nat
  prop_values : List Nat
deriving Repr, DecidableEq

/-- `AtomicRequest::for_ioctl_req`: walk the object table in key order,
emitting each key, its property count, and its two property vectors
concatenated onto the flat arrays. -/
def AtomicRequest.for_ioctl_req (req : AtomicRequest) : AtomicRequestRawParts :=
  { obj_ids := req.objs.map (fun kv => kv.1)
    obj_prop_counts := req.objs.map (fun kv => kv.2.prop_ids.length)
    prop_ids := (req.objs.map (fun kv => kv.2.prop_ids)).flatten
    prop_values := (req.objs.map (fun kv => kv.2.prop_values)).flatten }

/-! ### Helper functions over call sequences -/

/-- The property ids passed for object `k`, in call order. -/
def propsFor (calls : List SetPropertyCall) (k : Nat) : List Nat :=
  (calls.filter (fun c => c.obj = k)).map (fun c => c.prop)

/-- The property values passed for object `k`, in call order. -/
def valsFor (calls : List SetPropertyCall) (k : Nat) : List Nat :=
  (calls.filter (fun c => c.obj = k)).map (fun c => c.val)

/-- First-match lookup in the association list. -/
def lookupObjs : List (Nat × AtomicRequestObj) → Nat → Option AtomicRequestObj
  | [], _ => none
  | (k', o) :: rest, k => if k = k' then some o else lookupObjs rest k

/-- Lookup with the `or_insert_with` default. -/
def getObj (L : List (Nat × AtomicRequestObj)) (k : Nat) : AtomicRequestObj :=
  (lookupObjs L k).getD ⟨[], []⟩

/-- Reinterpret the four wire arrays back into (object, property, value)
triples, walking the object array and carving the concatenated
property-id/value arrays according to the counts array.  This is the
deserialization direction described by the specification (the kernel's
reading of the wire form); it has no counterpart function in the crate. -/
def unflatten : List Nat → List Nat → List Nat → List Nat →
    List (Nat × Nat × Nat)
  | k :: ks, n :: ns, ps, vs =>
    ((ps.take n).zip (vs.take n)).map (fun pv => (k, pv.1, pv.2)) ++
      unflatten ks ns (ps.drop n) (vs.drop n)
  | _, _, _, _ => []

/-- The (object, property, value) triple set by one call. -/
def tripleOf (c : SetPropertyCall) : Nat × Nat × Nat := (c.obj, c.prop, c.val)

/-- The keys of the object table, in iteration order. -/
def objKeys (L : List (Nat × AtomicRequestObj)) : List Nat :=
  L.map (fun kv => kv.1)

/-- Well-formedness of the `BTreeMap` model: keys strictly ascending. -/
def objsSorted (L : List (Nat × AtomicRequestObj)) : Prop :=
  (objKeys L).Pairwise (· < ·)

theorem objKeys_nil : objKeys [] = [] := rfl

theorem objsSorted_nil : objsSorted [] := List.Pairwise.nil

theorem mem_objKeys_setInObjs (L : List (Nat × AtomicRequestObj)) (k p v a : Nat) :
    a ∈ objKeys (setInObjs L k p v) ↔ a = k ∨ a ∈ objKeys L := by
  induction L with
  | nil => simp [setInObjs, objKeys]
  | cons kv rest ih =>
    obtain ⟨k', o⟩ := kv
    by_cases hlt : k < k'
    · have hset : setInObjs ((k', o) :: rest) k p v =
          (k, ⟨[p], [v]⟩) :: (k', o) :: rest := by
        simp [setInObjs, hlt]
      rw [hset]
      simp only [objKeys, List.map_cons, List.mem_cons]
    · by_cases heq : k = k'
      · subst heq
        have hset : setInObjs ((k, o) :: rest) k p v =
            (k, ⟨o.prop_ids ++ [p], o.prop_values ++ [v]⟩) :: rest := by
          simp [setInObjs, hlt]
        rw [hset]
        simp only [objKeys, List.map_cons, List.mem_cons]
        all_goals tauto
      · have hset : setInObjs ((k', o) :: rest) k p v =
            (k', o) :: setInObjs rest k p v := by
          simp [setInObjs, hlt, heq]
        rw [hset]
        simp only [objKeys, List.map_cons, List.mem_cons] at ih ⊢
        rw [ih]
        tauto

theorem objsSorted_setInObjs (L : List (Nat × AtomicRequestObj)) (k p v : Nat)
    (h : objsSorted L) : objsSorted (setInObjs L k p v) := by
  induction L with
  | nil => simp [setInObjs, objsSorted, objKeys]
  | cons kv rest ih =>
    obtain ⟨k', o⟩ := kv
    simp only [objsSorted, objKeys, List.map_cons, List.pairwise_cons] at h
    obtain ⟨hk', hrest⟩ := h
    by_cases hlt : k < k'
    · simp only [setInObjs, if_pos hlt, objsSorted, objKeys, List.map_cons,
        List.pairwise_cons]
      refine ⟨?_, hk', hrest⟩
      intro a ha
      rcases List.mem_cons.mp ha with rfl | ha
      · exact hlt
      · exact lt_trans hlt (hk' a ha)
    · by_cases heq : k = k'
      · subst heq
        have hset : setInObjs ((k, o) :: rest) k p v =
            (k, ⟨o.prop_ids ++ [p], o.prop_values ++ [v]⟩) :: rest := by
          simp [setInObjs, hlt]
        rw [hset]
        simp only [objsSorted, objKeys, List.map_cons, List.pairwise_cons]
        exact ⟨hk', hrest⟩
      · have hgt : k' < k := by omega
        simp only [setInObjs, if_neg hlt, if_neg heq, objsSorted, objKeys,
          List.map_cons, List.pairwise_cons]
        refine ⟨?_, ih hrest⟩
        intro a ha
        have := (mem_objKeys_setInObjs rest k p v a).mp ha
        rcases this with rfl | ha'
        · exact hgt
        · exact hk' a ha'

theorem lookupObjs_eq_none_iff (L : List (Nat × AtomicRequestObj)) (k : Nat) :
    lookupObjs L k = none ↔ k ∉ objKeys L := by
  induction L with
  | nil => simp [lookupObjs, objKeys]
  | cons kv rest ih =>
    obtain ⟨k', o⟩ := kv
    by_cases heq : k = k'
    · subst heq
      simp [lookupObjs, objKeys]
    · simp [lookupObjs, heq, objKeys] at ih ⊢
      exact ih

theorem lookupObjs_setInObjs_self (L : List (Nat × AtomicRequestObj)) (k p v : Nat)
    (h : objsSorted L) :
    lookupObjs (setInObjs L k p v) k =
      some ⟨(getObj L k).prop_ids ++ [p], (getObj L k).prop_values ++ [v]⟩ := by
  induction L with
  | nil => simp [setInObjs, lookupObjs, getObj]
  | cons kv rest ih =>
    obtain ⟨k', o⟩ := kv
    simp only [objsSorted, objKeys, List.map_cons, List.pairwise_cons] at h
    obtain ⟨hk', hrest⟩ := h
    by_cases hlt : k < k'
    · have hnot : k ∉ objKeys ((k', o) :: rest) := by
        simp only [objKeys, List.map_cons, List.mem_cons]
        push_neg
        constructor
        · omega
        · intro hmem
          have := hk' k hmem
          omega
      have hnone : lookupObjs ((k', o) :: rest) k = none :=
        (lookupObjs_eq_none_iff _ _).mpr hnot
      have h1 : lookupObjs (setInObjs ((k', o) :: rest) k p v) k =
          some ⟨[p], [v]⟩ := by
        simp [setInObjs, if_pos hlt, lookupObjs]
      rw [h1]
      simp only [getObj, hnone, Option.getD_none]
      rfl
    · by_cases heq : k = k'
      · subst heq
        have hset : setInObjs ((k, o) :: rest) k p v =
            (k, ⟨o.prop_ids ++ [p], o.prop_values ++ [v]⟩) :: rest := by
          simp [setInObjs, hlt]
        rw [hset]
        simp [lookupObjs, getObj]
      · simp only [setInObjs, if_neg hlt, if_neg heq, lookupObjs, if_neg heq,
          getObj]
        exact ih hrest

theorem lookupObjs_setInObjs_ne (L : List (Nat × AtomicRequestObj)) (k p v a : Nat)
    (hne : a ≠ k) : lookupObjs (setInObjs L k p v) a = lookupObjs L a := by
  induction L with
  | nil => simp [setInObjs, lookupObjs, hne]
  | cons kv rest ih =>
    obtain ⟨k', o⟩ := kv
    by_cases hlt : k < k'
    · simp [setInObjs, if_pos hlt, lookupObjs, hne]
    · by_cases heq : k = k'
      · subst heq
        by_cases hak : a = k
        · exact absurd hak hne
        · simp [setInObjs, if_neg hlt, lookupObjs, hak]
      · by_cases hak : a = k'
        · subst hak
          simp [setInObjs, if_neg hlt, if_neg heq, lookupObjs]
        · simp [setInObjs, if_neg hlt, if_neg heq, lookupObjs, hak]
          exact ih

theorem applyCalls_nil (R : AtomicRequest) : R.applyCalls [] = R := rfl

theorem applyCalls_cons (R : AtomicRequest) (c : SetPropertyCall)
    (cs : List SetPropertyCall) :
    R.applyCalls (c :: cs) = (R.set_property c).applyCalls cs := rfl

theorem propsFor_cons (c : SetPropertyCall) (cs : List SetPropertyCall) (k : Nat) :
    propsFor (c :: cs) k =
      if c.obj = k then c.prop :: propsFor cs k else propsFor cs k := by
  by_cases h : c.obj = k <;> simp [propsFor, h]

theorem valsFor_cons (c : SetPropertyCall) (cs : List SetPropertyCall) (k : Nat) :
    valsFor (c :: cs) k =
      if c.obj = k then c.val :: valsFor cs k else valsFor cs k := by
  by_cases h : c.obj = k <;> simp [valsFor, h]

theorem objsSorted_applyCalls (R : AtomicRequest) (calls : List SetPropertyCall)
    (h : objsSorted R.objs) : objsSorted (R.applyCalls calls).objs := by
  induction calls generalizing R with
  | nil => exact h
  | cons c cs ih =>
    rw [applyCalls_cons]
    exact ih _ (objsSorted_setInObjs _ _ _ _ h)

theorem mem_objKeys_applyCalls (R : AtomicRequest) (calls : List SetPropertyCall)
    (a : Nat) :
    a ∈ objKeys (R.applyCalls calls).objs ↔
      a ∈ objKeys R.objs ∨ a ∈ calls.map (fun c => c.obj) := by
  induction calls generalizing R with
  | nil => simp [applyCalls_nil]
  | cons c cs ih =>
    rw [applyCalls_cons, ih]
    have : objKeys (R.set_property c).objs = objKeys (setInObjs R.objs c.obj c.prop c.val) := rfl
    rw [this]
    constructor
    · intro hcase
      rcases hcase with hmem | hmem
      · rcases (mem_objKeys_setInObjs _ _ _ _ _).mp hmem with rfl | hmem'
        · right; simp
        · left; exact hmem'
      · right; simp [hmem]
    · intro hcase
      rcases hcase with hmem | hmem
      · left; exact (mem_objKeys_setInObjs _ _ _ _ _).mpr (Or.inr hmem)
      · rcases List.mem_map.mp hmem with ⟨c', hc', rfl⟩
        rcases List.mem_cons.mp hc' with rfl | hc''
        · left; exact (mem_objKeys_setInObjs _ _ _ _ _).mpr (Or.inl rfl)
        · right
          exact List.mem_map.mpr ⟨c', hc'', rfl⟩

theorem lookupObjs_applyCalls_some (R : AtomicRequest) (calls : List SetPropertyCall)
    (k : Nat) (o : AtomicRequestObj) (h : objsSorted R.objs)
    (hlk : lookupObjs R.objs k = some o) :
    lookupObjs (R.applyCalls calls).objs k =
      some ⟨o.prop_ids ++ propsFor calls k, o.prop_values ++ valsFor calls k⟩ := by
  induction calls generalizing R o with
  | nil => simp [applyCalls_nil, hlk, propsFor, valsFor]
  | cons c cs ih =>
    rw [applyCalls_cons]
    by_cases hk : k = c.obj
    · have hk' : c.obj = k := hk.symm
      have hlk' : lookupObjs (R.set_property c).objs k =
          some ⟨o.prop_ids ++ [c.prop], o.prop_values ++ [c.val]⟩ := by
        have := lookupObjs_setInObjs_self R.objs k c.prop c.val h
        simpa [AtomicRequest.set_property, getObj, hlk, hk'] using this
      have := ih (R.set_property c)
        ⟨o.prop_ids ++ [c.prop], o.prop_values ++ [c.val]⟩
        (objsSorted_setInObjs _ _ _ _ h) hlk'
      rw [this, propsFor_cons, valsFor_cons]
      simp [hk']
    · have hlk' : lookupObjs (R.set_property c).objs k = some o := by
        have := lookupObjs_setInObjs_ne R.objs c.obj c.prop c.val k
          (fun hcon => hk hcon)
        simpa [AtomicRequest.set_property, hlk] using this
      have := ih (R.set_property c) o (objsSorted_setInObjs _ _ _ _ h) hlk'
      rw [this, propsFor_cons, valsFor_cons]
      have hne : ¬ c.obj = k := fun hcon => hk hcon.symm
      simp [hne]

theorem lookupObjs_applyCalls_none (R : AtomicRequest) (calls : List SetPropertyCall)
    (k : Nat) (h : objsSorted R.objs) (hlk : lookupObjs R.objs k = none) :
    lookupObjs (R.applyCalls calls).objs k =
      if k ∈ calls.map (fun c => c.obj) then
        some ⟨propsFor calls k, valsFor calls k⟩
      else none := by
  induction calls generalizing R with
  | nil => simp [applyCalls_nil, hlk]
  | cons c cs ih =>
    rw [applyCalls_cons]
    by_cases hk : k = c.obj
    · have hk' : c.obj = k := hk.symm
      have hlk' : lookupObjs (R.set_property c).objs k =
          some ⟨[c.prop], [c.val]⟩ := by
        have := lookupObjs_setInObjs_self R.objs k c.prop c.val h
        simpa [AtomicRequest.set_property, getObj, hlk, hk'] using this
      have := lookupObjs_applyCalls_some (R.set_property c) cs k
        ⟨[c.prop], [c.val]⟩ (objsSorted_setInObjs _ _ _ _ h) hlk'
      rw [this, propsFor_cons, valsFor_cons]
      simp [hk']
    · have hlk' : lookupObjs (R.set_property c).objs k = none := by
        have := lookupObjs_setInObjs_ne R.objs c.obj c.prop c.val k
          (fun hcon => hk hcon)
        simpa [AtomicRequest.set_property, hlk] using this
      have := ih (R.set_property c) (objsSorted_setInObjs _ _ _ _ h) hlk'
      rw [this, propsFor_cons, valsFor_cons]
      have hne : ¬ c.obj = k := fun hcon => hk hcon.symm
      simp [hne, hk]

theorem lookupObjs_eq_of_mem (L : List (Nat × AtomicRequestObj))
    (h : objsSorted L) (k : Nat) (o : AtomicRequestObj) (hm : (k, o) ∈ L) :
    lookupObjs L k = some o := by
  induction L with
  | nil => cases hm
  | cons kv rest ih =>
    obtain ⟨k', o'⟩ := kv
    simp only [objsSorted, objKeys, List.map_cons, List.pairwise_cons] at h
    obtain ⟨hk', hrest⟩ := h
    rcases List.mem_cons.mp hm with heq | hmem
    · simp only [Prod.mk.injEq] at heq
      obtain ⟨rfl, rfl⟩ := heq
      simp [lookupObjs]
    · by_cases hkk : k = k'
      · subst hkk
        exfalso
        have : k ∈ List.map (fun kv => kv.1) rest :=
          List.mem_map.mpr ⟨(k, o), hmem, rfl⟩
        exact lt_irrefl k (hk' k this)
      · simp only [lookupObjs, if_neg hkk]
        exact ih hrest hmem

/-- An association list in which every entry's payload is determined by
its key equals the map of that determination over its own keys. -/
theorem assoc_canonical (L : List (Nat × AtomicRequestObj))
    (f : Nat → AtomicRequestObj) (h : ∀ kv ∈ L, kv.2 = f kv.1) :
    L = (objKeys L).map (fun k => (k, f k)) := by
  induction L with
  | nil => rfl
  | cons kv rest ih =>
    obtain ⟨k, o⟩ := kv
    have h1 : o = f k := h (k, o) (List.mem_cons_self _ _)
    have h2 : rest = (objKeys rest).map (fun k => (k, f k)) :=
      ih (fun kv hkv => h kv (List.mem_cons_of_mem _ hkv))
    simp only [objKeys, List.map_cons] at h2 ⊢
    rw [← h2, ← h1]

/-- Carving `unflatten` along per-object blocks of matching lengths
recovers exactly the per-object blocks. -/
theorem unflatten_of_blocks (D : List Nat) (P V : Nat → List Nat)
    (hlen : ∀ k, (P k).length = (V k).length) :
    unflatten D (D.map fun k => (P k).length)
        (D.map P).flatten (D.map V).flatten =
      (D.map (fun k => ((P k).zip (V k)).map (fun pv => (k, pv.1, pv.2)))).flatten := by
  induction D with
  | nil => rfl
  | cons k ks ih =>
    simp only [List.map_cons, List.flatten_cons, unflatten]
    rw [List.take_left, List.drop_left]
    rw [show (V k ++ (ks.map V).flatten).take (P k).length = V k from by
      rw [hlen k]; exact List.take_left _ _]
    rw [show (V k ++ (ks.map V).flatten).drop (P k).length = (ks.map V).flatten from by
      rw [hlen k]; exact List.drop_left _ _]
    rw [ih]

theorem propsFor_length_eq (calls : List SetPropertyCall) (k : Nat) :
    (propsFor calls k).length = (valsFor calls k).length := by
  simp [propsFor, valsFor]

/-- Expressed over the calls for one object: the zipped per-object block
is exactly the filtered calls mapped to triples. -/
theorem block_eq_filtered_triples (calls : List SetPropertyCall) (k : Nat) :
    ((propsFor calls k).zip (valsFor calls k)).map (fun pv => (k, pv.1, pv.2)) =
      (calls.filter (fun c => c.obj = k)).map tripleOf := by
  simp only [propsFor, valsFor, List.zip_map', List.map_map]
  apply List.map_congr_left
  intro c hc
  have hck : c.obj = k := by
    have := (List.mem_filter.mp hc).2
    simpa using this
  simp [tripleOf, Function.comp, hck]

/-- Grouping a call list by a duplicate-free cover of its object ids is a
permutation of the call list. -/
theorem grouped_perm (D : List Nat) (calls : List SetPropertyCall)
    (hnd : D.Nodup) (hcov : ∀ c ∈ calls, c.obj ∈ D) :
    ((D.map (fun k => (calls.filter (fun c => c.obj = k)).map tripleOf)).flatten).Perm
      (calls.map tripleOf) := by
  induction D generalizing calls with
  | nil =>
    cases calls with
    | nil => simp
    | cons c cs => exact absurd (hcov c (List.mem_cons_self _ _)) (by simp)
  | cons k ks ih =>
    simp only [List.map_cons, List.flatten_cons]
    have hnd' : ks.Nodup := (List.nodup_cons.mp hnd).2
    have hknot : k ∉ ks := (List.nodup_cons.mp hnd).1
    set cs' := calls.filter (fun c => !(decide (c.obj = k))) with hcs'
    have hcov' : ∀ c ∈ cs', c.obj ∈ ks := by
      intro c hc
      have hmem := List.mem_filter.mp hc
      have h1 : c.obj ≠ k := by simpa using hmem.2
      have h2 := hcov c hmem.1
      rcases List.mem_cons.mp h2 with h2 | h2
      · exact absurd h2 h1
      · exact h2
    have hsame : ∀ k' ∈ ks, calls.filter (fun c => c.obj = k') =
        cs'.filter (fun c => c.obj = k') := by
      intro k' hk'
      have hkk : k' ≠ k := fun hcon => hknot (hcon ▸ hk')
      rw [hcs', List.filter_filter]
      apply List.filter_congr
      intro c _
      by_cases hck : c.obj = k'
      · have : c.obj ≠ k := fun hcon => hkk (hck ▸ hcon ▸ rfl)
        simp [hck, this, hkk]
      · simp [hck]
    have hmaps : ks.map (fun k' => (calls.filter (fun c => c.obj = k')).map tripleOf) =
        ks.map (fun k' => (cs'.filter (fun c => c.obj = k')).map tripleOf) := by
      apply List.map_congr_left
      intro k' hk'
      rw [hsame k' hk']
    rw [hmaps]
    have hperm := ih cs' hnd' hcov'
    refine List.Perm.trans (hperm.append_left _) ?_
    rw [← List.map_append]
    exact (List.filter_append_perm _ calls).map tripleOf

/-- Every entry of a request built from a sequence of calls on a fresh
request holds exactly the property ids and values passed for its key, in
call order. -/
theorem entries_new_applyCalls (calls : List SetPropertyCall) :
    ∀ kv ∈ (AtomicRequest.new.applyCalls calls).objs,
      kv.2 = ⟨propsFor calls kv.1, valsFor calls kv.1⟩ := by
  intro kv hkv
  obtain ⟨k, o⟩ := kv
  have hsorted := objsSorted_applyCalls AtomicRequest.new calls objsSorted_nil
  have hlk := lookupObjs_eq_of_mem _ hsorted k o hkv
  have hnone : lookupObjs AtomicRequest.new.objs k = none := rfl
  have hall := lookupObjs_applyCalls_none AtomicRequest.new calls k objsSorted_nil hnone
  rw [hlk] at hall
  by_cases hmem : k ∈ calls.map (fun c => c.obj)
  · rw [if_pos hmem] at hall
    exact Option.some.inj hall
  · rw [if_neg hmem] at hall
    cases hall

/-- Serialization of a table whose entries are determined by their key,
expressed over the key list. -/
theorem for_ioctl_req_canonical (R : AtomicRequest) (f : Nat → AtomicRequestObj)
    (h : ∀ kv ∈ R.objs, kv.2 = f kv.1) :
    R.for_ioctl_req =
      ⟨objKeys R.objs,
       (objKeys R.objs).map (fun k => (f k).prop_ids.length),
       ((objKeys R.objs).map (fun k => (f k).prop_ids)).flatten,
       ((objKeys R.objs).map (fun k => (f k).prop_values)).flatten⟩ := by
  have hc := assoc_canonical R.objs f h
  unfold AtomicRequest.for_ioctl_req
  simp only [AtomicRequestRawParts.mk.injEq]
  refine ⟨rfl, ?_, ?_, ?_⟩
  · conv_lhs => rw [hc]
    simp [List.map_map, Function.comp_def, objKeys]
  · conv_lhs => rw [hc]
    simp [List.map_map, Function.comp_def, objKeys]
  · conv_lhs => rw [hc]
    simp [List.map_map, Function.comp_def, objKeys]

/-- C1: for every sequence of `set_property` calls on a freshly created
`AtomicRequest`, the serialized wire form lists each distinct touched
raw object id exactly once in strictly ascending order; the parallel
counts entry for each object equals the number of `set_property` calls
made for that object; the concatenated property-id and value arrays,
partitioned according to the counts array, reproduce per object exactly
the (property id, value) pairs passed for it; and the multiset of
(object, property, value) triples is preserved by serialization. -/
theorem c1_atomic_serialization_faithful (calls : List SetPropertyCall) :
    let P := (AtomicRequest.new.applyCalls calls).for_ioctl_req
    P.obj_ids.Pairwise (· < ·) ∧
    (∀ a, a ∈ P.obj_ids ↔ a ∈ calls.map (fun c => c.obj)) ∧
    P.obj_prop_counts =
      P.obj_ids.map (fun k => (calls.filter (fun c => c.obj = k)).length) ∧
    P.prop_ids = (P.obj_ids.map (propsFor calls)).flatten ∧
    P.prop_values = (P.obj_ids.map (valsFor calls)).flatten ∧
    unflatten P.obj_ids P.obj_prop_counts P.prop_ids P.prop_values =
      (P.obj_ids.map (fun k =>
        (calls.filter (fun c => c.obj = k)).map tripleOf)).flatten ∧
    (unflatten P.obj_ids P.obj_prop_counts P.prop_ids P.prop_values).Perm
      (calls.map tripleOf) := by
  intro P
  have hfor := for_ioctl_req_canonical (AtomicRequest.new.applyCalls calls)
    (fun k => ⟨propsFor calls k, valsFor calls k⟩) (entries_new_applyCalls calls)
  have hP : P = ⟨objKeys (AtomicRequest.new.applyCalls calls).objs,
      (objKeys (AtomicRequest.new.applyCalls calls).objs).map
        (fun k => (propsFor calls k).length),
      ((objKeys (AtomicRequest.new.applyCalls calls).objs).map
        (propsFor calls)).flatten,
      ((objKeys (AtomicRequest.new.applyCalls calls).objs).map
        (valsFor calls)).flatten⟩ := hfor
  set D := objKeys (AtomicRequest.new.applyCalls calls).objs with hD
  have hsorted : D.Pairwise (· < ·) :=
    objsSorted_applyCalls AtomicRequest.new calls objsSorted_nil
  have hmem : ∀ a, a ∈ D ↔ a ∈ calls.map (fun c => c.obj) := by
    intro a
    rw [hD, mem_objKeys_applyCalls]
    simp only [AtomicRequest.new, objKeys, List.map_nil, List.not_mem_nil,
      false_or]
  have hnd : D.Nodup := hsorted.imp (fun hab => Nat.ne_of_lt hab)
  have hcov : ∀ c ∈ calls, c.obj ∈ D := by
    intro c hc
    exact (hmem c.obj).mpr (List.mem_map.mpr ⟨c, hc, rfl⟩)
  have hunf : unflatten P.obj_ids P.obj_prop_counts P.prop_ids P.prop_values =
      (D.map (fun k =>
        (calls.filter (fun c => c.obj = k)).map tripleOf)).flatten := by
    rw [hP]
    have := unflatten_of_blocks D (propsFor calls) (valsFor calls)
      (propsFor_length_eq calls)
    rw [this]
    apply congrArg List.flatten
    apply List.map_congr_left
    intro k _
    exact block_eq_filtered_triples calls k
  refine ⟨?_, ?_, ?_, ?_, ?_, ?_, ?_⟩
  · rw [hP]; exact hsorted
  · intro a; rw [hP]; exact hmem a
  · rw [hP]
    apply List.map_congr_left
    intro k _
    simp [propsFor]
  · rw [hP]
  · rw [hP]
  · rw [hP] at hunf ⊢
    exact hunf
  · rw [hunf]
    exact grouped_perm D calls hnd hcov

theorem lookupObjs_map_empty (L : List (Nat × AtomicRequestObj)) (k : Nat) :
    lookupObjs (L.map (fun kv => (kv.1, (⟨[], []⟩ : AtomicRequestObj)))) k =
      (lookupObjs L k).map (fun _ => (⟨[], []⟩ : AtomicRequestObj)) := by
  induction L with
  | nil => rfl
  | cons kv rest ih =>
    obtain ⟨k', o⟩ := kv
    by_cases heq : k = k'
    · simp [lookupObjs, heq]
    · simp only [List.map_cons, lookupObjs, if_neg heq]
      exact ih

theorem objKeys_reset (R : AtomicRequest) : objKeys R.reset.objs = objKeys R.objs := by
  simp [AtomicRequest.reset, objKeys, List.map_map, Function.comp_def]

theorem objsSorted_reset (R : AtomicRequest) (h : objsSorted R.objs) :
    objsSorted R.reset.objs := by
  unfold objsSorted
  rw [objKeys_reset]
  exact h

/-- Two sorted association lists with the same lookup function are equal. -/
theorem assoc_ext (L₁ L₂ : List (Nat × AtomicRequestObj))
    (h₁ : objsSorted L₁) (h₂ : objsSorted L₂)
    (h : ∀ k, lookupObjs L₁ k = lookupObjs L₂ k) : L₁ = L₂ := by
  induction L₁ generalizing L₂ with
  | nil =>
    cases L₂ with
    | nil => rfl
    | cons kv rest =>
      obtain ⟨k, o⟩ := kv
      have := h k
      simp [lookupObjs] at this
  | cons kv₁ t₁ ih =>
    obtain ⟨k₁, o₁⟩ := kv₁
    cases L₂ with
    | nil =>
      have := h k₁
      simp [lookupObjs] at this
    | cons kv₂ t₂ =>
      obtain ⟨k₂, o₂⟩ := kv₂
      simp only [objsSorted, objKeys, List.map_cons, List.pairwise_cons] at h₁ h₂
      obtain ⟨hk₁, ht₁⟩ := h₁
      obtain ⟨hk₂, ht₂⟩ := h₂
      have hkeq : k₁ = k₂ := by
        by_contra hne
        have e₁ := h k₁
        have e₂ := h k₂
        rw [show lookupObjs ((k₁, o₁) :: t₁) k₁ = some o₁ from by simp [lookupObjs]] at e₁
        rw [show lookupObjs ((k₂, o₂) :: t₂) k₂ = some o₂ from by simp [lookupObjs]] at e₂
        -- k₁ is found in L₂'s tail, so k₂ < k₁; symmetrically k₁ < k₂.
        have hm₁ : k₁ ∈ objKeys t₂ := by
          by_contra hnot
          have : lookupObjs t₂ k₁ = none := (lookupObjs_eq_none_iff _ _).mpr hnot
          rw [show lookupObjs ((k₂, o₂) :: t₂) k₁ = lookupObjs t₂ k₁ from by
            simp [lookupObjs, hne], this] at e₁
          cases e₁
        have hne' : k₂ ≠ k₁ := fun hcon => hne hcon.symm
        have hm₂ : k₂ ∈ objKeys t₁ := by
          by_contra hnot
          have : lookupObjs t₁ k₂ = none := (lookupObjs_eq_none_iff _ _).mpr hnot
          rw [show lookupObjs ((k₁, o₁) :: t₁) k₂ = lookupObjs t₁ k₂ from by
            simp [lookupObjs, hne'], this] at e₂
          cases e₂
        have l₁ := hk₂ k₁ hm₁
        have l₂ := hk₁ k₂ hm₂
        omega
      subst hkeq
      have hoeq : o₁ = o₂ := by
        have := h k₁
        simpa [lookupObjs] using this
      subst hoeq
      have htl : t₁ = t₂ := by
        apply ih t₂ ht₁ ht₂
        intro k
        by_cases hk : k = k₁
        · subst hk
          have hn₁ : lookupObjs t₁ k = none := by
            apply (lookupObjs_eq_none_iff _ _).mpr
            intro hmem
            exact lt_irrefl k (hk₁ k hmem)
          have hn₂ : lookupObjs t₂ k = none := by
            apply (lookupObjs_eq_none_iff _ _).mpr
            intro hmem
            exact lt_irrefl k (hk₂ k hmem)
          rw [hn₁, hn₂]
        · have := h k
          simpa [lookupObjs, hk] using this
      rw [htl]

theorem for_ioctl_req_congr (R₁ R₂ : AtomicRequest) (h : R₁.objs = R₂.objs) :
    R₁.for_ioctl_req = R₂.for_ioctl_req := by
  unfold AtomicRequest.for_ioctl_req
  rw [h]

/-- C3: serializing a fresh request after applying a call sequence, then
resetting and applying the identical sequence again, serializes to the
identical four arrays. -/
theorem c3_reset_replay_identical (calls : List SetPropertyCall) :
    ((AtomicRequest.new.applyCalls calls).reset.applyCalls calls).for_ioctl_req =
      (AtomicRequest.new.applyCalls calls).for_ioctl_req := by
  have hQsorted : objsSorted (AtomicRequest.new.applyCalls calls).objs :=
    objsSorted_applyCalls AtomicRequest.new calls objsSorted_nil
  have hRsorted : objsSorted (AtomicRequest.new.applyCalls calls).reset.objs :=
    objsSorted_reset _ hQsorted
  have hFsorted : objsSorted
      ((AtomicRequest.new.applyCalls calls).reset.applyCalls calls).objs :=
    objsSorted_applyCalls _ calls hRsorted
  apply for_ioctl_req_congr
  apply assoc_ext _ _ hFsorted hQsorted
  intro k
  have hQ := lookupObjs_applyCalls_none AtomicRequest.new calls k objsSorted_nil rfl
  have hreset : lookupObjs (AtomicRequest.new.applyCalls calls).reset.objs k =
      (lookupObjs (AtomicRequest.new.applyCalls calls).objs k).map
        (fun _ => (⟨[], []⟩ : AtomicRequestObj)) :=
    lookupObjs_map_empty _ k
  by_cases hmem : k ∈ calls.map (fun c => c.obj)
  · rw [if_pos hmem] at hQ
    have hreset' : lookupObjs (AtomicRequest.new.applyCalls calls).reset.objs k =
        some ⟨[], []⟩ := by
      rw [hreset, hQ]
      rfl
    have := lookupObjs_applyCalls_some
      (AtomicRequest.new.applyCalls calls).reset calls k ⟨[], []⟩ hRsorted hreset'
    rw [this, hQ]
    rfl
  · rw [if_neg hmem] at hQ
    have hreset' : lookupObjs (AtomicRequest.new.applyCalls calls).reset.objs k =
        none := by
      rw [hreset, hQ]
      rfl
    have := lookupObjs_applyCalls_none
      (AtomicRequest.new.applyCalls calls).reset calls k hRsorted hreset'
    rw [this, hQ, if_neg hmem]

/-- Serialization of a reset request: the object ids survive with zero
counts and empty flattened arrays. -/
theorem for_ioctl_req_reset (R : AtomicRequest) :
    R.reset.for_ioctl_req =
      ⟨objKeys R.objs, (objKeys R.objs).map (fun _ => 0), [], []⟩ := by
  unfold AtomicRequest.reset AtomicRequest.for_ioctl_req
  simp [List.map_map, Function.comp_def, objKeys]

/-- C10: after `set_property` has touched an object and `reset()` is
called, serialization still emits that object's id with a zero property
count and empty property arrays, unlike a freshly constructed request
which serializes to four empty arrays; hence a reset request is not
observationally equivalent to a new one under serialization. -/
theorem c10_reset_keeps_object_ids (c : SetPropertyCall)
    (calls : List SetPropertyCall) :
    let P := (AtomicRequest.new.applyCalls (c :: calls)).reset.for_ioctl_req
    c.obj ∈ P.obj_ids ∧
    (∀ n ∈ P.obj_prop_counts, n = 0) ∧
    P.prop_ids = [] ∧
    P.prop_values = [] ∧
    AtomicRequest.new.for_ioctl_req = ⟨[], [], [], []⟩ ∧
    P ≠ AtomicRequest.new.for_ioctl_req := by
  intro P
  have hP : P = ⟨objKeys (AtomicRequest.new.applyCalls (c :: calls)).objs,
      (objKeys (AtomicRequest.new.applyCalls (c :: calls)).objs).map (fun _ => 0),
      [], []⟩ := for_ioctl_req_reset _
  have hmem : c.obj ∈ objKeys (AtomicRequest.new.applyCalls (c :: calls)).objs := by
    rw [mem_objKeys_applyCalls]
    right
    simp
  refine ⟨?_, ?_, ?_, ?_, rfl, ?_⟩
  · rw [hP]
    exact hmem
  · rw [hP]
    intro n hn
    rcases List.mem_map.mp hn with ⟨_, _, rfl⟩
    rfl
  · rw [hP]
  · rw [hP]
  · rw [hP]
    intro hcon
    have hids : objKeys (AtomicRequest.new.applyCalls (c :: calls)).objs = [] := by
      have := congrArg AtomicRequestRawParts.obj_ids hcon
      simpa [AtomicRequest.new, AtomicRequest.for_ioctl_req] using this
    rw [hids] at hmem
    cases hmem

/-! ## Property type decoding (src/modeset/props.rs with constants from
src/ioctl.rs) -/

def DRM_MODE_PROP_PENDING : Nat := 1 <<< 0
def DRM_MODE_PROP_RANGE : Nat := 1 <<< 1
def DRM_MODE_PROP_IMMUTABLE : Nat := 1 <<< 2
def DRM_MODE_PROP_ENUM : Nat := 1 <<< 3
def DRM_MODE_PROP_BLOB : Nat := 1 <<< 4
def DRM_MODE_PROP_BITMASK : Nat := 1 <<< 5
def DRM_MODE_PROP_LEGACY_TYPE : Nat :=
  DRM_MODE_PROP_RANGE ||| DRM_MODE_PROP_ENUM |||
    DRM_MODE_PROP_BLOB ||| DRM_MODE_PROP_BITMASK
def DRM_MODE_PROP_EXTENDED_TYPE : Nat := 0x0000ffc0
def DRM_MODE_PROP_TYPE (n : Nat) : Nat := n <<< 6
def DRM_MODE_PROP_OBJECT : Nat := DRM_MODE_PROP_TYPE 1
def DRM_MODE_PROP_SIGNED_RANGE : Nat := DRM_MODE_PROP_TYPE 2

/-- The `PropertyType` enumeration of src/modeset/props.rs. -/
inductive PropertyType where
  | Unknown
  | Range
  | Enum
  | Blob
  | Bitmask
  | Object
  | SignedRange
deriving Repr, DecidableEq

/-- `PropertyType::from_raw_flags`: the immutability bit is tested
independently; the type is selected by masking the flags with the union
of the legacy group and the extended-type field and comparing the masked
word against each known constant in source order (the Rust `match` on
`type_raw`). -/
def PropertyType.from_raw_flags (flags : Nat) : PropertyType × Bool :=
  let immutable := (flags &&& DRM_MODE_PROP_IMMUTABLE) != 0
  let type_raw :=
    flags &&& (DRM_MODE_PROP_LEGACY_TYPE ||| DRM_MODE_PROP_EXTENDED_TYPE)
  let typ :=
    if type_raw = DRM_MODE_PROP_RANGE then PropertyType.Range
    else if type_raw = DRM_MODE_PROP_ENUM then PropertyType.Enum
    else if type_raw = DRM_MODE_PROP_BLOB then PropertyType.Blob
    else if type_raw = DRM_MODE_PROP_BITMASK then PropertyType.Bitmask
    else if type_raw = DRM_MODE_PROP_OBJECT then PropertyType.Object
    else if type_raw = DRM_MODE_PROP_SIGNED_RANGE then PropertyType.SignedRange
    else PropertyType.Unknown
  (typ, immutable)

/-- When both groups have bits set, the masked word differs from any
constant that is confined to a single group. -/
theorem masked_ne_of_both_groups (flags c : Nat)
    (h1 : flags &&& DRM_MODE_PROP_LEGACY_TYPE ≠ 0)
    (h2 : flags &&& DRM_MODE_PROP_EXTENDED_TYPE ≠ 0)
    (hc : c &&& DRM_MODE_PROP_LEGACY_TYPE = 0 ∨
      c &&& DRM_MODE_PROP_EXTENDED_TYPE = 0) :
    flags &&& (DRM_MODE_PROP_LEGACY_TYPE ||| DRM_MODE_PROP_EXTENDED_TYPE) ≠ c := by
  intro heq
  rcases hc with hc | hc
  · apply h1
    have hgrp := congrArg (· &&& DRM_MODE_PROP_LEGACY_TYPE) heq
    simp only [Nat.land_assoc] at hgrp
    rw [show (DRM_MODE_PROP_LEGACY_TYPE ||| DRM_MODE_PROP_EXTENDED_TYPE) &&&
        DRM_MODE_PROP_LEGACY_TYPE = DRM_MODE_PROP_LEGACY_TYPE from by decide] at hgrp
    rw [hgrp, hc]
  · apply h2
    have hgrp := congrArg (· &&& DRM_MODE_PROP_EXTENDED_TYPE) heq
    simp only [Nat.land_assoc] at hgrp
    rw [show (DRM_MODE_PROP_LEGACY_TYPE ||| DRM_MODE_PROP_EXTENDED_TYPE) &&&
        DRM_MODE_PROP_EXTENDED_TYPE = DRM_MODE_PROP_EXTENDED_TYPE from by decide] at hgrp
    rw [hgrp, hc]

/-- C4 counterexample: with both the ENUM legacy bit and the Object
extended-type value set, the decoder does not let the legacy group win;
no match arm fires and the result is `Unknown`, not `Enum`. -/
theorem c4_legacy_wins_counterexample :
    (PropertyType.from_raw_flags (DRM_MODE_PROP_ENUM ||| DRM_MODE_PROP_OBJECT)).1 ≠
        PropertyType.Enum ∧
    PropertyType.from_raw_flags (DRM_MODE_PROP_ENUM ||| DRM_MODE_PROP_OBJECT) =
      (PropertyType.Unknown, false) := by
  decide

/-- C4 (amended): the immutability flag is decoded independently of the
type for every flags word; a masked type field equal to a single known
legacy or extended constant decodes to that type; an unrecognized masked
field falls back to `Unknown`; and when both a legacy bit and an
extended value are set, no constant matches, so the decoder falls back
to `Unknown` (rather than letting the legacy group win).  The three
concrete decodings named by the specification hold. -/
theorem c4_from_raw_flags_amended (flags : Nat) :
    ((PropertyType.from_raw_flags flags).2 =
      ((flags &&& DRM_MODE_PROP_IMMUTABLE) != 0)) ∧
    (flags &&& (DRM_MODE_PROP_LEGACY_TYPE ||| DRM_MODE_PROP_EXTENDED_TYPE) =
      DRM_MODE_PROP_RANGE → (PropertyType.from_raw_flags flags).1 = PropertyType.Range) ∧
    (flags &&& (DRM_MODE_PROP_LEGACY_TYPE ||| DRM_MODE_PROP_EXTENDED_TYPE) =
      DRM_MODE_PROP_ENUM → (PropertyType.from_raw_flags flags).1 = PropertyType.Enum) ∧
    (flags &&& (DRM_MODE_PROP_LEGACY_TYPE ||| DRM_MODE_PROP_EXTENDED_TYPE) =
      DRM_MODE_PROP_BLOB → (PropertyType.from_raw_flags flags).1 = PropertyType.Blob) ∧
    (flags &&& (DRM_MODE_PROP_LEGACY_TYPE ||| DRM_MODE_PROP_EXTENDED_TYPE) =
      DRM_MODE_PROP_BITMASK → (PropertyType.from_raw_flags flags).1 = PropertyType.Bitmask) ∧
    (flags &&& (DRM_MODE_PROP_LEGACY_TYPE ||| DRM_MODE_PROP_EXTENDED_TYPE) =
      DRM_MODE_PROP_OBJECT → (PropertyType.from_raw_flags flags).1 = PropertyType.Object) ∧
    (flags &&& (DRM_MODE_PROP_LEGACY_TYPE ||| DRM_MODE_PROP_EXTENDED_TYPE) =
      DRM_MODE_PROP_SIGNED_RANGE →
      (PropertyType.from_raw_flags flags).1 = PropertyType.SignedRange) ∧
    (flags &&& (DRM_MODE_PROP_LEGACY_TYPE ||| DRM_MODE_PROP_EXTENDED_TYPE) ≠
        DRM_MODE_PROP_RANGE →
      flags &&& (DRM_MODE_PROP_LEGACY_TYPE ||| DRM_MODE_PROP_EXTENDED_TYPE) ≠
        DRM_MODE_PROP_ENUM →
      flags &&& (DRM_MODE_PROP_LEGACY_TYPE ||| DRM_MODE_PROP_EXTENDED_TYPE) ≠
        DRM_MODE_PROP_BLOB →
      flags &&& (DRM_MODE_PROP_LEGACY_TYPE ||| DRM_MODE_PROP_EXTENDED_TYPE) ≠
        DRM_MODE_PROP_BITMASK →
      flags &&& (DRM_MODE_PROP_LEGACY_TYPE ||| DRM_MODE_PROP_EXTENDED_TYPE) ≠
        DRM_MODE_PROP_OBJECT →
      flags &&& (DRM_MODE_PROP_LEGACY_TYPE ||| DRM_MODE_PROP_EXTENDED_TYPE) ≠
        DRM_MODE_PROP_SIGNED_RANGE →
      (PropertyType.from_raw_flags flags).1 = PropertyType.Unknown) ∧
    (flags &&& DRM_MODE_PROP_LEGACY_TYPE ≠ 0 →
      flags &&& DRM_MODE_PROP_EXTENDED_TYPE ≠ 0 →
      (PropertyType.from_raw_flags flags).1 = PropertyType.Unknown) ∧
    (PropertyType.from_raw_flags (DRM_MODE_PROP_IMMUTABLE ||| DRM_MODE_PROP_ENUM) =
      (PropertyType.Enum, true)) ∧
    (PropertyType.from_raw_flags DRM_MODE_PROP_OBJECT =
      (PropertyType.Object, false)) ∧
    (PropertyType.from_raw_flags 0 = (PropertyType.Unknown, false)) := by
  refine ⟨rfl, ?_, ?_, ?_, ?_, ?_, ?_, ?_, ?_, by decide, by decide, by decide⟩
  · intro h
    simp only [PropertyType.from_raw_flags, h]
    decide
  · intro h
    simp only [PropertyType.from_raw_flags, h]
    decide
  · intro h
    simp only [PropertyType.from_raw_flags, h]
    decide
  · intro h
    simp only [PropertyType.from_raw_flags, h]
    decide
  · intro h
    simp only [PropertyType.from_raw_flags, h]
    decide
  · intro h
    simp only [PropertyType.from_raw_flags, h]
    decide
  · intro h2 h3 h4 h5 h6 h7
    simp only [PropertyType.from_raw_flags]
    rw [if_neg h2, if_neg h3, if_neg h4, if_neg h5, if_neg h6, if_neg h7]
  · intro h1 h2
    simp only [PropertyType.from_raw_flags]
    rw [if_neg (masked_ne_of_both_groups flags _ h1 h2 (Or.inr (by decide))),
      if_neg (masked_ne_of_both_groups flags _ h1 h2 (Or.inr (by decide))),
      if_neg (masked_ne_of_both_groups flags _ h1 h2 (Or.inr (by decide))),
      if_neg (masked_ne_of_both_groups flags _ h1 h2 (Or.inr (by decide))),
      if_neg (masked_ne_of_both_groups flags _ h1 h2 (Or.inl (by decide))),
      if_neg (masked_ne_of_both_groups flags _ h1 h2 (Or.inl (by decide)))]

/-- Witness for the amended C4 theorem at concrete flag words. -/
theorem c4_from_raw_flags_amended_witness :
    (PropertyType.from_raw_flags DRM_MODE_PROP_ENUM).1 = PropertyType.Enum ∧
    (PropertyType.from_raw_flags
      (DRM_MODE_PROP_ENUM ||| DRM_MODE_PROP_OBJECT)).1 = PropertyType.Unknown :=
  ⟨(c4_from_raw_flags_amended DRM_MODE_PROP_ENUM).2.2.1 (by decide),
   (c4_from_raw_flags_amended
      (DRM_MODE_PROP_ENUM ||| DRM_MODE_PROP_OBJECT)).2.2.2.2.2.2.2.2.1
     (by decide) (by decide)⟩

/-! ## Error mapping (src/result.rs)

The raw codes come from the `linux_io` collaborator, which is outside
this repository's sources; per the spec it surfaces "a small set of
standard negative-result codes", so the constants below carry the
standard Linux errno numbers.  The mapping functions themselves are
translated from `src/result.rs`. -/

def EPERM : Nat := 1
def ENOENT : Nat := 2
def EINTR : Nat := 4
def EIO_CODE : Nat := 5
def ENXIO : Nat := 6
def ENOMEM : Nat := 12
def EACCES : Nat := 13
def ENODEV : Nat := 19
def EINVAL : Nat := 22
def ENOSPC : Nat := 28
def EOPNOTSUPP : Nat := 95

/-- The public error enumeration of src/result.rs. -/
inductive Error where
  | Invalid
  | NonExist
  | SystemMem
  | GraphicsMem
  | Permission
  | Disconnected
  | NotSupported
  | RemoteFailure
  | Died
  | Other (raw : Nat)
deriving Repr, DecidableEq

/-- `impl From<linux_io::result::Error> for Error`: raw code to public
error, in the source's match order. -/
def Error.from_raw (value : Nat) : Error :=
  if value = EINVAL then .Invalid
  else if value = ENOENT then .NonExist
  else if value = ENOMEM then .SystemMem
  else if value = ENOSPC then .SystemMem
  else if value = EPERM then .Permission
  else if value = EACCES then .Permission
  else if value = ENODEV then .Disconnected
  else if value = EOPNOTSUPP then .NotSupported
  else if value = ENXIO then .RemoteFailure
  else if value = EIO_CODE then .Died
  else .Other value

/-- `impl Into<linux_io::result::Error> for Error`: public error to raw
code. -/
def Error.into_raw : Error → Nat
  | .Invalid => EINVAL
  | .NonExist => ENOENT
  | .SystemMem => ENOMEM
  | .GraphicsMem => ENOSPC
  | .Permission => EPERM
  | .Disconnected => ENODEV
  | .NotSupported => EOPNOTSUPP
  | .RemoteFailure => ENXIO
  | .Died => EIO_CODE
  | .Other v => v

/-- C9 counterexample: `GraphicsMem` converts to the device-side
out-of-space code, but that code maps back to `SystemMem`, so the
variant round-trip fails exactly there. -/
theorem c9_graphics_mem_counterexample :
    Error.from_raw Error.GraphicsMem.into_raw = Error.SystemMem ∧
    Error.from_raw Error.GraphicsMem.into_raw ≠ Error.GraphicsMem := by
  decide

/-- C9 (amended): every variant other than the catch-all `Other` and
other than `GraphicsMem` round-trips through its raw code;
`GraphicsMem` instead comes back as `SystemMem`; and for every raw code
that maps to a non-catch-all variant, converting back yields a raw code
mapping to that same variant. -/
theorem c9_error_mapping_amended :
    (∀ e : Error, (∀ r, e ≠ Error.Other r) → e ≠ Error.GraphicsMem →
      Error.from_raw e.into_raw = e) ∧
    Error.from_raw Error.GraphicsMem.into_raw = Error.SystemMem ∧
    (∀ c : Nat, (∀ r, Error.from_raw c ≠ Error.Other r) →
      Error.from_raw (Error.from_raw c).into_raw = Error.from_raw c) := by
  refine ⟨?_, by decide, ?_⟩
  · intro e hother hgm
    cases e with
    | Other r => exact absurd rfl (hother r)
    | GraphicsMem => exact absurd rfl hgm
    | Invalid => decide
    | NonExist => decide
    | SystemMem => decide
    | Permission => decide
    | Disconnected => decide
    | NotSupported => decide
    | RemoteFailure => decide
    | Died => decide
  · intro c h
    by_cases h1 : c = EINVAL
    · rw [h1]; decide
    by_cases h2 : c = ENOENT
    · rw [h2]; decide
    by_cases h3 : c = ENOMEM
    · rw [h3]; decide
    by_cases h4 : c = ENOSPC
    · rw [h4]; decide
    by_cases h5 : c = EPERM
    · rw [h5]; decide
    by_cases h6 : c = EACCES
    · rw [h6]; decide
    by_cases h7 : c = ENODEV
    · rw [h7]; decide
    by_cases h8 : c = EOPNOTSUPP
    · rw [h8]; decide
    by_cases h9 : c = ENXIO
    · rw [h9]; decide
    by_cases h10 : c = EIO_CODE
    · rw [h10]; decide
    exfalso
    apply h c
    simp [Error.from_raw, h1, h2, h3, h4, h5, h6, h7, h8, h9, h10]

/-- Witness for the amended C9 theorem at concrete inputs. -/
theorem c9_error_mapping_amended_witness :
    Error.from_raw Error.Invalid.into_raw = Error.Invalid ∧
    Error.from_raw (Error.from_raw ENOSPC).into_raw = Error.from_raw ENOSPC := by
  refine ⟨c9_error_mapping_amended.1 Error.Invalid
     (fun r h => Error.noConfusion h) (fun h => Error.noConfusion h),
    c9_error_mapping_amended.2.2 ENOSPC ?_⟩
  intro r h
  rw [show Error.from_raw ENOSPC = Error.SystemMem from by decide] at h
  exact Error.noConfusion h

/-! ## Interrupted-retry gateway (src/lib.rs, `drm_ioctl`)

`drm_ioctl` loops re-issuing the same exchange while the outcome is
`Err(EINTR)`.  We model the successive outcomes of the underlying
`f.ioctl` calls as a list; the model returns the first non-interrupted
outcome, or `none` if the supplied outcomes are exhausted while still
interrupted (the source loop would keep re-issuing). -/

def drm_ioctl {α : Type} (outcomes : List (Except Nat α)) :
    Option (Except Nat α) :=
  match outcomes with
  | [] => none
  | ret :: rest =>
    match ret with
    | .error e => if e = EINTR then drm_ioctl rest else some (.error e)
    | .ok v => some (.ok v)

theorem drm_ioctl_of_prefix {α : Type} (pre post : List (Except Nat α))
    (r : Except Nat α) (hpre : ∀ x ∈ pre, x = Except.error EINTR)
    (hr : r ≠ Except.error EINTR) :
    drm_ioctl (pre ++ r :: post) = some r := by
  induction pre with
  | nil =>
    cases r with
    | ok v => rfl
    | error e =>
      have he : e ≠ EINTR := fun hcon => hr (by rw [hcon])
      simp [drm_ioctl, he]
  | cons x pre' ih =>
    have hx : x = Except.error EINTR := hpre x (List.mem_cons_self _ _)
    subst hx
    simp only [List.cons_append, drm_ioctl, if_pos rfl]
    exact ih (fun y hy => hpre y (List.mem_cons_of_mem _ hy))

theorem drm_ioctl_some_inv {α : Type} (outcomes : List (Except Nat α))
    (r : Except Nat α) (h : drm_ioctl outcomes = some r) :
    r ≠ Except.error EINTR ∧
      ∃ pre post, outcomes = pre ++ r :: post ∧
        ∀ x ∈ pre, x = Except.error EINTR := by
  induction outcomes with
  | nil => cases h
  | cons x rest ih =>
    cases x with
    | ok v =>
      have hr : r = Except.ok v := by
        have := Option.some.inj h
        exact this.symm
      subst hr
      exact ⟨fun hcon => Except.noConfusion hcon, [], rest, rfl, by simp⟩
    | error e =>
      by_cases he : e = EINTR
      · subst he
        simp only [drm_ioctl, if_pos rfl] at h
        obtain ⟨hr, pre, post, heq, hpre⟩ := ih h
        refine ⟨hr, Except.error EINTR :: pre, post, by rw [heq]; rfl, ?_⟩
        intro x hx
        rcases List.mem_cons.mp hx with rfl | hx'
        · rfl
        · exact hpre x hx'
      · simp only [drm_ioctl, if_neg he] at h
        have hr : r = Except.error e := (Option.some.inj h).symm
        subst hr
        refine ⟨fun hcon => he (by injection hcon), [], rest, rfl, by simp⟩

theorem drm_ioctl_none_iff {α : Type} (outcomes : List (Except Nat α)) :
    drm_ioctl outcomes = none ↔ ∀ x ∈ outcomes, x = Except.error EINTR := by
  induction outcomes with
  | nil => simp [drm_ioctl]
  | cons x rest ih =>
    cases x with
    | ok v => simp [drm_ioctl]
    | error e =>
      by_cases he : e = EINTR
      · subst he
        simp only [drm_ioctl, if_pos rfl, if_true]
        rw [ih]
        constructor
        · intro hall x hx
          rcases List.mem_cons.mp hx with rfl | hx'
          · rfl
          · exact hall x hx'
        · intro hall x hx
          exact hall x (List.mem_cons_of_mem _ hx)
      · simp only [drm_ioctl, if_neg he]
        constructor
        · intro hcon
          cases hcon
        · intro hall
          have := hall (Except.error e) (List.mem_cons_self _ _)
          exact absurd (by injection this) he

/-- C6: the gateway re-issues the identical exchange exactly while the
outcome is the interrupted code, returns the first non-interrupted
outcome — success or any other error — unchanged, and retries on no
other outcome: it returns `some r` precisely when the supplied outcome
sequence is a block of interrupted outcomes followed by `r`, and keeps
retrying (consumes everything) precisely when every outcome is
interrupted. -/
theorem c6_gateway_retries_only_interrupted {α : Type}
    (outcomes : List (Except Nat α)) (r : Except Nat α) :
    (drm_ioctl outcomes = some r ↔
      (r ≠ Except.error EINTR ∧
        ∃ pre post, outcomes = pre ++ r :: post ∧
          ∀ x ∈ pre, x = Except.error EINTR)) ∧
    (drm_ioctl outcomes = none ↔ ∀ x ∈ outcomes, x = Except.error EINTR) := by
  refine ⟨⟨drm_ioctl_some_inv outcomes r, ?_⟩, drm_ioctl_none_iff outcomes⟩
  rintro ⟨hr, pre, post, rfl, hpre⟩
  exact drm_ioctl_of_prefix pre post r hpre hr

/-! ## Size-then-content retry loops (src/lib.rs, src/modeset/props.rs)

Each variable-length read issues a size probe, allocates, then re-issues
the exchange with buffers attached, retrying while the reported count
differs from the requested one.  We model the outcomes of the successive
underlying exchanges as explicit lists: a content-exchange outcome is
either a raw errno or the reported count together with the buffer
contents the kernel populated.  `none` is the model's cutoff for a loop
that would issue a further exchange beyond the supplied outcomes. -/

/-- Result of one fetch operation as seen at its return: a value, an
error value returned to the caller, or a panic raised by a `.unwrap()`
inside the operation. -/
inductive FetchOutcome (β : Type) where
  | ok (v : β)
  | err (e : Error)
  | panicked (e : Nat)
deriving Repr, DecidableEq

/-- The loop of `Card::object_properties` (also the loop shape of
`Card::each_object_property_meta`): request `count` entries; on a
changed reported count retry with the new count; on an exchange error
propagate it with `?` (mapped into the public error type); on a stable
count return the first `count` populated (prop id, value) pairs. -/
def getPropsLoop (count : Nat)
    (exchanges : List (Except Nat (Nat × List Nat × List Nat))) :
    Option (FetchOutcome (List (Nat × Nat))) :=
  match exchanges with
  | [] => none
  | ex :: rest =>
    match ex with
    | .error e => some (.err (Error.from_raw e))
    | .ok (newCount, ids, vals) =>
      if newCount ≠ count then getPropsLoop newCount rest
      else some (.ok ((ids.take count).zip (vals.take count)))

/-- `Card::object_properties` (the inner `real_object_properties`): a
size probe followed by the content loop.  Note: the source has no
zero-count early return here — the loop runs even when the probe
reports zero. -/
def object_properties (probe : Except Nat Nat)
    (exchanges : List (Except Nat (Nat × List Nat × List Nat))) :
    Option (FetchOutcome (List (Nat × Nat))) :=
  match probe with
  | .error e => some (.err (Error.from_raw e))
  | .ok count => getPropsLoop count exchanges

/-- The property-array fetch of `Card::each_object_property_meta`: like
`object_properties` but with the explicit zero-count early return
(`if tmp.count_props() == 0 { return Ok(()); }`).  The per-property
metadata fetches that follow the array fetch are outside this model. -/
def each_object_property_meta_props (probe : Except Nat Nat)
    (exchanges : List (Except Nat (Nat × List Nat × List Nat))) :
    Option (FetchOutcome (List (Nat × Nat))) :=
  match probe with
  | .error e => some (.err (Error.from_raw e))
  | .ok count =>
    if count = 0 then some (.ok [])
    else getPropsLoop count exchanges

/-- The loop of `ObjectPropMeta::values`: same retry discipline, but the
exchange result is consumed with `.unwrap()`, so an exchange error is a
panic, not a returned error. -/
def valuesLoop (count : Nat) (exchanges : List (Except Nat (Nat × List Nat))) :
    Option (FetchOutcome (List Nat)) :=
  match exchanges with
  | [] => none
  | ex :: rest =>
    match ex with
    | .error e => some (.panicked e)
    | .ok (newCount, vals) =>
      if newCount ≠ count then valuesLoop newCount rest
      else some (.ok (vals.take count))

/-- `ObjectPropMeta::values`: `count` is the stored `count_values` of
the property metadata (the probe); zero returns empty with no exchange. -/
def values_fetch (count : Nat) (exchanges : List (Except Nat (Nat × List Nat))) :
    Option (FetchOutcome (List Nat)) :=
  if count = 0 then some (.ok [])
  else valuesLoop count exchanges

/-- `ObjectPropMeta::range`: valid only for range-typed properties;
exactly one content exchange for exactly two values, with the exchange
result consumed by `.unwrap()` and count mismatches reported as
`RemoteFailure`. -/
def range_fetch (flags : Nat) (count_values : Nat)
    (exchange : Except Nat (Nat × List Nat)) : FetchOutcome (Nat × Nat) :=
  if (flags &&& (DRM_MODE_PROP_RANGE ||| DRM_MODE_PROP_SIGNED_RANGE)) = 0 then
    .err Error.NotSupported
  else if count_values ≠ 2 then .err Error.RemoteFailure
  else
    match exchange with
    | .error e => .panicked e
    | .ok (newCount, vals) =>
      if newCount ≠ 2 then .err Error.RemoteFailure
      else .ok (vals.getD 0 0, vals.getD 1 0)

/-- `ObjectPropMeta::enum_members`: returns empty for non-enum types
without any exchange; otherwise the same retry loop as `values`, with
the exchange result consumed by `.unwrap()`.  Each member is modelled by
its stored value. -/
def enum_members_fetch (flags : Nat) (count : Nat)
    (exchanges : List (Except Nat (Nat × List Nat))) :
    Option (FetchOutcome (List Nat)) :=
  if (flags &&& (DRM_MODE_PROP_ENUM ||| DRM_MODE_PROP_BITMASK)) = 0 then
    some (.ok [])
  else valuesLoop count exchanges

/-- One probe outcome of `Card::resources`: the four element counts. -/
structure ResProbe where
  fbs : Nat
  connectors : Nat
  crtcs : Nat
  encoders : Nat
deriving Repr, DecidableEq

/-- One content-exchange outcome of `Card::resources`: the re-reported
counts and the four populated id arrays. -/
structure ResContent where
  fbs : Nat
  connectors : Nat
  crtcs : Nat
  encoders : Nat
  fb_ids : List Nat
  connector_ids : List Nat
  crtc_ids : List Nat
  encoder_ids : List Nat
deriving Repr, DecidableEq

/-- The four id arrays assembled by `Card::resources` (the plane array,
fetched by a separate single-array loop of the same re-probing shape, is
not part of this structure). -/
structure CardResourcesArrays where
  fb_ids : List Nat
  connector_ids : List Nat
  crtc_ids : List Nat
  encoder_ids : List Nat
deriving Repr, DecidableEq

/-- The main loop of `Card::resources`: every iteration issues a fresh
zero-capacity probe and then the content exchange; any one of the four
counts changing forces a full restart; exchange errors propagate with
`?`. -/
def resourcesLoop (rounds : List (Except Nat ResProbe × Except Nat ResContent)) :
    Option (FetchOutcome CardResourcesArrays) :=
  match rounds with
  | [] => none
  | (probe, content) :: rest =>
    match probe with
    | .error e => some (.err (Error.from_raw e))
    | .ok p =>
      match content with
      | .error e => some (.err (Error.from_raw e))
      | .ok c =>
        if c.fbs ≠ p.fbs then resourcesLoop rest
        else if c.connectors ≠ p.connectors then resourcesLoop rest
        else if c.crtcs ≠ p.crtcs then resourcesLoop rest
        else if c.encoders ≠ p.encoders then resourcesLoop rest
        else some (.ok ⟨c.fb_ids.take p.fbs, c.connector_ids.take p.connectors,
          c.crtc_ids.take p.crtcs, c.encoder_ids.take p.encoders⟩)

theorem getPropsLoop_err_inv (count : Nat)
    (exchanges : List (Except Nat (Nat × List Nat × List Nat))) (e : Error)
    (h : getPropsLoop count exchanges = some (FetchOutcome.err e)) :
    ∃ e', Except.error e' ∈ exchanges ∧ e = Error.from_raw e' := by
  induction exchanges generalizing count with
  | nil => cases h
  | cons ex rest ih =>
    cases ex with
    | error e' =>
      simp only [getPropsLoop] at h
      have he : e = Error.from_raw e' := by
        have := Option.some.inj h
        injection this.symm
      exact ⟨e', List.mem_cons_self _ _, he⟩
    | ok t =>
      obtain ⟨n, ids, vals⟩ := t
      simp only [getPropsLoop] at h
      by_cases hne : n ≠ count
      · rw [if_pos hne] at h
        obtain ⟨e', hmem, heq⟩ := ih n h
        exact ⟨e', List.mem_cons_of_mem _ hmem, heq⟩
      · rw [if_neg hne] at h
        have := Option.some.inj h
        cases this

theorem getPropsLoop_ok_full (count : Nat)
    (exchanges : List (Except Nat (Nat × List Nat × List Nat)))
    (props : List (Nat × Nat))
    (hw : ∀ n ids vals, Except.ok (n, ids, vals) ∈ exchanges →
      (ids : List Nat).length = n ∧ (vals : List Nat).length = n)
    (h : getPropsLoop count exchanges = some (FetchOutcome.ok props)) :
    ∃ n ids vals, Except.ok (n, ids, vals) ∈ exchanges ∧
      props = (ids.take n).zip (vals.take n) ∧ props.length = n := by
  induction exchanges generalizing count with
  | nil => cases h
  | cons ex rest ih =>
    cases ex with
    | error e' =>
      simp only [getPropsLoop] at h
      have := Option.some.inj h
      cases this
    | ok t =>
      obtain ⟨n, ids, vals⟩ := t
      simp only [getPropsLoop] at h
      by_cases hne : n ≠ count
      · rw [if_pos hne] at h
        obtain ⟨n', ids', vals', hmem, hprops, hlen⟩ := ih n
          (fun n' ids' vals' hmem' => hw n' ids' vals' (List.mem_cons_of_mem _ hmem'))
          h
        exact ⟨n', ids', vals', List.mem_cons_of_mem _ hmem, hprops, hlen⟩
      · rw [if_neg hne] at h
        have hcount : n = count := not_ne_iff.mp hne
        have hmem : Except.ok (n, ids, vals) ∈
            Except.ok (n, ids, vals) :: rest := List.mem_cons_self _ _
        obtain ⟨hil, hvl⟩ := hw n ids vals hmem
        have hprops : props = (ids.take count).zip (vals.take count) := by
          have := Option.some.inj h
          injection this.symm
        refine ⟨n, ids, vals, hmem, by rw [hprops, hcount], ?_⟩
        rw [hprops]
        simp only [List.length_zip, List.length_take]
        omega

theorem resourcesLoop_err_inv
    (rounds : List (Except Nat ResProbe × Except Nat ResContent)) (e : Error)
    (h : resourcesLoop rounds = some (FetchOutcome.err e)) :
    ∃ e', e = Error.from_raw e' ∧ ∃ round ∈ rounds,
      round.1 = Except.error e' ∨ round.2 = Except.error e' := by
  induction rounds with
  | nil => cases h
  | cons round rest ih =>
    obtain ⟨probe, content⟩ := round
    cases probe with
    | error e' =>
      simp only [resourcesLoop] at h
      have he : e = Error.from_raw e' := by
        have := Option.some.inj h
        injection this.symm
      exact ⟨e', he, (Except.error e', content), List.mem_cons_self _ _, Or.inl rfl⟩
    | ok p =>
      cases content with
      | error e' =>
        simp only [resourcesLoop] at h
        have he : e = Error.from_raw e' := by
          have := Option.some.inj h
          injection this.symm
        exact ⟨e', he, (Except.ok p, Except.error e'), List.mem_cons_self _ _,
          Or.inr rfl⟩
      | ok c =>
        simp only [resourcesLoop] at h
        by_cases h1 : c.fbs ≠ p.fbs
        · rw [if_pos h1] at h
          obtain ⟨e', he, round, hmem, hor⟩ := ih h
          exact ⟨e', he, round, List.mem_cons_of_mem _ hmem, hor⟩
        · rw [if_neg h1] at h
          by_cases h2 : c.connectors ≠ p.connectors
          · rw [if_pos h2] at h
            obtain ⟨e', he, round, hmem, hor⟩ := ih h
            exact ⟨e', he, round, List.mem_cons_of_mem _ hmem, hor⟩
          · rw [if_neg h2] at h
            by_cases h3 : c.crtcs ≠ p.crtcs
            · rw [if_pos h3] at h
              obtain ⟨e', he, round, hmem, hor⟩ := ih h
              exact ⟨e', he, round, List.mem_cons_of_mem _ hmem, hor⟩
            · rw [if_neg h3] at h
              by_cases h4 : c.encoders ≠ p.encoders
              · rw [if_pos h4] at h
                obtain ⟨e', he, round, hmem, hor⟩ := ih h
                exact ⟨e', he, round, List.mem_cons_of_mem _ hmem, hor⟩
              · rw [if_neg h4] at h
                have := Option.some.inj h
                cases this

theorem resourcesLoop_ok_full
    (rounds : List (Except Nat ResProbe × Except Nat ResContent))
    (arrs : CardResourcesArrays)
    (hw : ∀ p c, (Except.ok p, Except.ok c) ∈ rounds →
      c.fb_ids.length = c.fbs ∧ c.connector_ids.length = c.connectors ∧
      c.crtc_ids.length = c.crtcs ∧ c.encoder_ids.length = c.encoders)
    (h : resourcesLoop rounds = some (FetchOutcome.ok arrs)) :
    ∃ p c, (Except.ok p, Except.ok c) ∈ rounds ∧
      c.fbs = p.fbs ∧ c.connectors = p.connectors ∧
      c.crtcs = p.crtcs ∧ c.encoders = p.encoders ∧
      arrs.fb_ids.length = p.fbs ∧ arrs.connector_ids.length = p.connectors ∧
      arrs.crtc_ids.length = p.crtcs ∧ arrs.encoder_ids.length = p.encoders := by
  induction rounds with
  | nil => cases h
  | cons round rest ih =>
    obtain ⟨probe, content⟩ := round
    cases probe with
    | error e' =>
      simp only [resourcesLoop] at h
      have := Option.some.inj h
      cases this
    | ok p =>
      cases content with
      | error e' =>
        simp only [resourcesLoop] at h
        have := Option.some.inj h
        cases this
      | ok c =>
        simp only [resourcesLoop] at h
        have ihw : ∀ p' c', (Except.ok p', Except.ok c') ∈ rest →
            c'.fb_ids.length = c'.fbs ∧ c'.connector_ids.length = c'.connectors ∧
            c'.crtc_ids.length = c'.crtcs ∧ c'.encoder_ids.length = c'.encoders :=
          fun p' c' hmem => hw p' c' (List.mem_cons_of_mem _ hmem)
        by_cases h1 : c.fbs ≠ p.fbs
        · rw [if_pos h1] at h
          obtain ⟨p', c', hmem, hrest⟩ := ih ihw h
          exact ⟨p', c', List.mem_cons_of_mem _ hmem, hrest⟩
        · rw [if_neg h1] at h
          by_cases h2 : c.connectors ≠ p.connectors
          · rw [if_pos h2] at h
            obtain ⟨p', c', hmem, hrest⟩ := ih ihw h
            exact ⟨p', c', List.mem_cons_of_mem _ hmem, hrest⟩
          · rw [if_neg h2] at h
            by_cases h3 : c.crtcs ≠ p.crtcs
            · rw [if_pos h3] at h
              obtain ⟨p', c', hmem, hrest⟩ := ih ihw h
              exact ⟨p', c', List.mem_cons_of_mem _ hmem, hrest⟩
            · rw [if_neg h3] at h
              by_cases h4 : c.encoders ≠ p.encoders
              · rw [if_pos h4] at h
                obtain ⟨p', c', hmem, hrest⟩ := ih ihw h
                exact ⟨p', c', List.mem_cons_of_mem _ hmem, hrest⟩
              · rw [if_neg h4] at h
                have harrs : arrs = ⟨c.fb_ids.take p.fbs,
                    c.connector_ids.take p.connectors,
                    c.crtc_ids.take p.crtcs, c.encoder_ids.take p.encoders⟩ := by
                  have := Option.some.inj h
                  injection this.symm
                obtain ⟨l1, l2, l3, l4⟩ := hw p c (List.mem_cons_self _ _)
                have e1 : c.fbs = p.fbs := not_ne_iff.mp h1
                have e2 : c.connectors = p.connectors := not_ne_iff.mp h2
                have e3 : c.crtcs = p.crtcs := not_ne_iff.mp h3
                have e4 : c.encoders = p.encoders := not_ne_iff.mp h4
                refine ⟨p, c, List.mem_cons_self _ _, e1, e2, e3, e4,
                  ?_, ?_, ?_, ?_⟩ <;>
                  simp only [harrs, List.length_take] <;> omega

/-- C2: for the variable-length snapshot reads, a cardinality mismatch
alone never surfaces: an error result always stems from a genuine
exchange error; a successful result is always fully populated to the
count at which the exchange stabilized (for `resources`, each of the
four arrays to its own stabilized count); and in the simulated race
where the probe reports counts that the content exchange contradicts
once before stabilizing, the reader transparently retries and returns
full-length results. -/
theorem c2_cardinality_race_invisible :
    (∀ count exchanges e, getPropsLoop count exchanges = some (FetchOutcome.err e) →
      ∃ e', Except.error e' ∈ exchanges ∧ e = Error.from_raw e') ∧
    (∀ count exchanges props,
      (∀ n ids vals, Except.ok (n, ids, vals) ∈ exchanges →
        (ids : List Nat).length = n ∧ (vals : List Nat).length = n) →
      getPropsLoop count exchanges = some (FetchOutcome.ok props) →
      ∃ n ids vals, Except.ok (n, ids, vals) ∈ exchanges ∧
        props = (ids.take n).zip (vals.take n) ∧ props.length = n) ∧
    (∀ rounds e, resourcesLoop rounds = some (FetchOutcome.err e) →
      ∃ e', e = Error.from_raw e' ∧ ∃ round ∈ rounds,
        round.1 = Except.error e' ∨ round.2 = Except.error e') ∧
    (∀ rounds arrs,
      (∀ p c, (Except.ok p, Except.ok c) ∈ rounds →
        c.fb_ids.length = c.fbs ∧ c.connector_ids.length = c.connectors ∧
        c.crtc_ids.length = c.crtcs ∧ c.encoder_ids.length = c.encoders) →
      resourcesLoop rounds = some (FetchOutcome.ok arrs) →
      ∃ p c, (Except.ok p, Except.ok c) ∈ rounds ∧
        c.fbs = p.fbs ∧ c.connectors = p.connectors ∧
        c.crtcs = p.crtcs ∧ c.encoders = p.encoders ∧
        arrs.fb_ids.length = p.fbs ∧ arrs.connector_ids.length = p.connectors ∧
        arrs.crtc_ids.length = p.crtcs ∧ arrs.encoder_ids.length = p.encoders) ∧
    (∀ (p : ResProbe) (c₁ c₂ : ResContent),
      c₁.fbs ≠ p.fbs →
      c₂.fbs = p.fbs → c₂.connectors = p.connectors →
      c₂.crtcs = p.crtcs → c₂.encoders = p.encoders →
      c₂.fb_ids.length = c₂.fbs → c₂.connector_ids.length = c₂.connectors →
      c₂.crtc_ids.length = c₂.crtcs → c₂.encoder_ids.length = c₂.encoders →
      ∃ arrs, resourcesLoop [(Except.ok p, Except.ok c₁), (Except.ok p, Except.ok c₂)] =
          some (FetchOutcome.ok arrs) ∧
        arrs.fb_ids.length = p.fbs ∧ arrs.connector_ids.length = p.connectors ∧
        arrs.crtc_ids.length = p.crtcs ∧ arrs.encoder_ids.length = p.encoders) := by
  refine ⟨getPropsLoop_err_inv, getPropsLoop_ok_full, resourcesLoop_err_inv,
    resourcesLoop_ok_full, ?_⟩
  intro p c₁ c₂ hne he1 he2 he3 he4 hl1 hl2 hl3 hl4
  refine ⟨⟨c₂.fb_ids.take p.fbs, c₂.connector_ids.take p.connectors,
    c₂.crtc_ids.take p.crtcs, c₂.encoder_ids.take p.encoders⟩, ?_, ?_, ?_, ?_, ?_⟩
  · simp only [resourcesLoop, if_pos hne]
    rw [if_neg (by omega : ¬ c₂.fbs ≠ p.fbs),
      if_neg (by omega : ¬ c₂.connectors ≠ p.connectors),
      if_neg (by omega : ¬ c₂.crtcs ≠ p.crtcs),
      if_neg (by omega : ¬ c₂.encoders ≠ p.encoders)]
  · simp only [List.length_take]; omega
  · simp only [List.length_take]; omega
  · simp only [List.length_take]; omega
  · simp only [List.length_take]; omega

/-- Witness for C2 at a concrete race: a probe of 1 followed by content
exchanges reporting 2 twice, and an erroring exchange for the error
direction. -/
theorem c2_cardinality_race_invisible_witness :
    (∃ e', Except.error e' ∈
        [Except.error (α := Nat × List Nat × List Nat) ENOENT] ∧
      Error.NonExist = Error.from_raw e') ∧
    (∃ arrs, resourcesLoop [(Except.ok ⟨1, 1, 1, 1⟩, Except.ok ⟨2, 1, 1, 1, [5, 6], [7], [8], [9]⟩),
        (Except.ok ⟨1, 1, 1, 1⟩, Except.ok ⟨1, 1, 1, 1, [5], [7], [8], [9]⟩)] =
        some (FetchOutcome.ok arrs) ∧
      arrs.fb_ids.length = 1 ∧ arrs.connector_ids.length = 1 ∧
      arrs.crtc_ids.length = 1 ∧ arrs.encoder_ids.length = 1) :=
  ⟨c2_cardinality_race_invisible.1 0 [Except.error ENOENT] Error.NonExist (by decide),
   c2_cardinality_race_invisible.2.2.2.2 ⟨1, 1, 1, 1⟩ ⟨2, 1, 1, 1, [5, 6], [7], [8], [9]⟩
     ⟨1, 1, 1, 1, [5], [7], [8], [9]⟩ (by decide) (by decide) (by decide) (by decide)
     (by decide) (by decide) (by decide) (by decide) (by decide)⟩

/-- C5: the property metadata fetches `values`, `range` and
`enum_members` consume the underlying exchange result with `.unwrap()`,
so an error outcome of the exchange panics instead of being returned as
an error value — contradicting the propagation policy that every
fallible core operation reports failure by returning an error value.
For contrast, `object_properties` propagates the same exchange error as
a returned error value. -/
theorem c5_metadata_fetch_unwrap_panics :
    values_fetch 2 [Except.error ENOENT] = some (FetchOutcome.panicked ENOENT) ∧
    (∀ e : Error, values_fetch 2 [Except.error ENOENT] ≠
      some (FetchOutcome.err e)) ∧
    range_fetch DRM_MODE_PROP_RANGE 2 (Except.error ENOENT) =
      FetchOutcome.panicked ENOENT ∧
    enum_members_fetch DRM_MODE_PROP_ENUM 2 [Except.error ENOENT] =
      some (FetchOutcome.panicked ENOENT) ∧
    object_properties (Except.ok 1) [Except.error ENOENT] =
      some (FetchOutcome.err Error.NonExist) := by
  refine ⟨by decide, ?_, by decide, by decide, by decide⟩
  intro e h
  rw [show values_fetch 2 [Except.error ENOENT] =
    some (FetchOutcome.panicked ENOENT) from by decide] at h
  exact FetchOutcome.noConfusion (Option.some.inj h)

/-- C8 counterexample: when the probe of `object_properties` reports a
count of zero, the operation still issues the content exchange: with no
exchange outcome available it cannot complete (rather than returning an
empty result), and an erroring content exchange changes its result. -/
theorem c8_zero_count_counterexample :
    object_properties (Except.ok 0) [] = none ∧
    object_properties (Except.ok 0) [] ≠ some (FetchOutcome.ok []) ∧
    object_properties (Except.ok 0) [Except.error ENOENT] =
      some (FetchOutcome.err Error.NonExist) := by
  refine ⟨rfl, ?_, by decide⟩
  intro h
  cases h

/-- C8 (amended): the zero-count skip holds for
`each_object_property_meta` and for the property value-list fetch
(`values`), which return empty without touching the exchange; but
`object_properties` has no zero-count early return — it performs the
content exchange even when the probe reports zero, returning empty only
once the zero count is confirmed by that exchange. -/
theorem c8_zero_count_amended
    (vexchanges : List (Except Nat (Nat × List Nat)))
    (pexchanges : List (Except Nat (Nat × List Nat × List Nat)))
    (ids vals : List Nat)
    (rest : List (Except Nat (Nat × List Nat × List Nat))) :
    values_fetch 0 vexchanges = some (FetchOutcome.ok []) ∧
    each_object_property_meta_props (Except.ok 0) pexchanges =
      some (FetchOutcome.ok []) ∧
    object_properties (Except.ok 0) (Except.ok (0, ids, vals) :: rest) =
      some (FetchOutcome.ok []) ∧
    object_properties (Except.ok 0) [] = none := by
  refine ⟨rfl, rfl, ?_, rfl⟩
  simp [object_properties, getPropsLoop]

/-! ## Dumb buffer creation (src/lib.rs `create_dumb_buffer` with
src/util.rs `Cleanup`)

The operation performs four fallible steps (CREATE_DUMB, ADDFB,
MAP_DUMB, the mmap itself).  After CREATE_DUMB succeeds a `Cleanup`
guard armed with DESTROY_DUMB is registered; after ADDFB succeeds a
second guard armed with RMFB is registered.  An early `?` return drops
live guards in reverse declaration order (the RMFB guard first, then
the DESTROY_DUMB guard); the success path cancels both guards.  The
model returns the operation's result together with the list of cleanup
calls issued, in issue order. -/

/-- The kernel's reply to DRM_IOCTL_MODE_CREATE_DUMB. -/
structure CreateDumbReply where
  handle : Nat
  pitch : Nat
  size : Nat
deriving Repr, DecidableEq

/-- A cleanup call issued to the device while unwinding. -/
inductive CleanupCall where
  | destroyDumb (handle : Nat)
  | rmFb (fb_id : Nat)
deriving Repr, DecidableEq

/-- The caller's request geometry. -/
structure DumbBufferRequest where
  width : Nat
  height : Nat
  depth : Nat
  bpp : Nat
deriving Repr, DecidableEq

/-- The fields of the returned `DumbBuffer` (the raw pointer and the
weak file reference are not modelled). -/
structure DumbBuffer where
  width : Nat
  height : Nat
  bpp : Nat
  pitch : Nat
  len : Nat
  fb_id : Nat
  buffer_handle : Nat
deriving Repr, DecidableEq

/-- Outcomes of the four underlying steps of `create_dumb_buffer`. -/
structure DumbSteps where
  createDumb : Except Nat CreateDumbReply
  addFb : Except Nat Nat
  mapDumb : Except Nat Nat
  mmap : Except Nat Nat
deriving Repr

/-- `Card::create_dumb_buffer` over the step outcomes: result plus the
cleanup calls issued before returning, in order. -/
def create_dumb_buffer (req : DumbBufferRequest) (steps : DumbSteps) :
    Except Error DumbBuffer × List CleanupCall :=
  match steps.createDumb with
  | .error e => (.error (Error.from_raw e), [])
  | .ok cd =>
    match steps.addFb with
    | .error e => (.error (Error.from_raw e), [.destroyDumb cd.handle])
    | .ok fb_id =>
      match steps.mapDumb with
      | .error e => (.error (Error.from_raw e),
          [.rmFb fb_id, .destroyDumb cd.handle])
      | .ok _offset =>
        match steps.mmap with
        | .error e => (.error (Error.from_raw e),
            [.rmFb fb_id, .destroyDumb cd.handle])
        | .ok _ptr =>
          (.ok ⟨req.width, req.height, req.bpp, cd.pitch, cd.size,
            fb_id, cd.handle⟩, [])

/-- C7: if framebuffer creation fails after the dumb buffer was created,
the dumb buffer is destroyed before the error returns; if either
mapping step fails after framebuffer creation, the framebuffer is
removed and then the dumb buffer destroyed before the error returns; on
the success path no cleanup call is issued; and a failure of the very
first step issues no cleanup either. -/
theorem c7_create_dumb_buffer_unwinds (req : DumbBufferRequest)
    (cd : CreateDumbReply) (fb off ptr e : Nat)
    (a : Except Nat Nat) (b : Except Nat Nat) (m : Except Nat Nat) :
    create_dumb_buffer req ⟨.error e, a, b, m⟩ =
      (.error (Error.from_raw e), []) ∧
    create_dumb_buffer req ⟨.ok cd, .error e, b, m⟩ =
      (.error (Error.from_raw e), [.destroyDumb cd.handle]) ∧
    create_dumb_buffer req ⟨.ok cd, .ok fb, .error e, m⟩ =
      (.error (Error.from_raw e), [.rmFb fb, .destroyDumb cd.handle]) ∧
    create_dumb_buffer req ⟨.ok cd, .ok fb, .ok off, .error e⟩ =
      (.error (Error.from_raw e), [.rmFb fb, .destroyDumb cd.handle]) ∧
    create_dumb_buffer req ⟨.ok cd, .ok fb, .ok off, .ok ptr⟩ =
      (.ok ⟨req.width, req.height, req.bpp, cd.pitch, cd.size,
        fb, cd.handle⟩, []) :=
  ⟨rfl, rfl, rfl, rfl, rfl⟩
